import Mathlib

set_option maxRecDepth 8192

/-!
# Verification of the Gemini Audiobook Creator core pipeline

Shallow embedding of the core functions of the repository
(`src/services/geminiService.ts` and the waveform renderer of the audio
player component), together with proofs and refutations of the claims the
specification makes about them.

Strings are modelled as `List Char` (one entry per UTF-16 code unit of the
JavaScript string; all inputs considered here are ASCII, where the two
notions coincide).
-/

namespace AudiobookCore

/-- The ordered list of boundary markers used by `splitTextSafe`: sentence
punctuation followed by a space, then period followed by a newline, then a
bare space (the `splitPoints` constant of the source). -/
def splitPoints : List (List Char) :=
  [". ".toList, "? ".toList, "! ".toList, ".\n".toList, " ".toList]

/-- Marker occurrence test: `matchAt s p j` holds when the marker `p`
occurs in `s` starting at index `j` (the substring of `s` of length
`p.length` starting at `j` equals `p`). -/
def matchAt (s p : List Char) (j : Nat) : Bool :=
  decide ((s.drop j).take p.length = p)

/-- Model of JavaScript `s.lastIndexOf(p, L)`: the greatest index `j ≤ L`
at which `p` occurs in `s`, or `none` when there is no such occurrence
(JavaScript returns `-1`). -/
def lastMatchLe (s p : List Char) (L : Nat) : Option Nat :=
  (List.range (L + 1)).reverse.find? (fun j => matchAt s p j)

/-- One iteration of the marker loop of `splitTextSafe`, for a single
marker `p`, on the remaining suffix `s` with budget `L`: the code computes
`lastPointIndex = text.lastIndexOf(point, end)` and accepts it when
`lastPointIndex > start && lastPointIndex < end`, setting
`end = lastPointIndex + point.length`.  Relative to the suffix the cursor
is at 0 and the candidate end at `L`. -/
def tryPoint (s : List Char) (L : Nat) (p : List Char) : Option Nat :=
  match lastMatchLe s p L with
  | some j => if 0 < j ∧ j < L then some (j + p.length) else none
  | none => none

/-- The `for (const point of splitPoints)` loop: the first marker (in
preference order) whose last occurrence at or before the candidate end
lies strictly between the cursor and the candidate end determines the cut. -/
def findSplit (s : List Char) (L : Nat) : Option Nat :=
  splitPoints.findSome? (tryPoint s L)

/-- The absolute end (relative to the remaining suffix) of the next chunk:
the accepted marker cut when one exists, otherwise the hard split at
exactly `maxLength` (`if (!foundSplit) end = start + maxLength`). -/
def chunkEnd (s : List Char) (L : Nat) : Nat :=
  (findSplit s L).getD L

/-- Fuel-indexed model of the `while (start < text.length)` loop of
`splitTextSafe`, operating on the remaining suffix.  `none` means the fuel
was exhausted before the loop terminated; with fuel `≥ text.length` and
`maxLength ≥ 1` this never happens (proved below). -/
def splitGo : Nat → Nat → List Char → Option (List (List Char))
  | 0, _, s => if s = [] then some [] else none
  | fuel + 1, L, s =>
    if s = [] then some []
    else if s.length ≤ L then some [s]
    else
      (splitGo fuel L (s.drop (chunkEnd s L))).map
        (fun rest => s.take (chunkEnd s L) :: rest)

/-- Model of `splitTextSafe(text, maxLength)` from
`src/services/geminiService.ts`. -/
def splitTextSafe (text : List Char) (maxLength : Nat) : List (List Char) :=
  (splitGo text.length maxLength text).getD []

/-- Substring test: `containsSub s p` holds when `p` occurs somewhere in
`s` (JavaScript `s.includes(p)`). -/
def containsSub (s p : List Char) : Bool :=
  (List.range (s.length + 1)).any (fun j => matchAt s p j)

/-- A string contains at least one boundary marker (so it is not "one
indivisible run of non-boundary characters" in the sense of the spec). -/
def hasMarker (c : List Char) : Bool :=
  splitPoints.any (fun p => containsSub c p)

/-! ## Basic lemmas about the chunker -/

lemma matchAt_take {s p : List Char} {j : Nat} (h : matchAt s p j = true) :
    (s.drop j).take p.length = p := of_decide_eq_true h

lemma matchAt_le_length {s p : List Char} {j : Nat} (h : matchAt s p j = true)
    (hp : 1 ≤ p.length) : j + p.length ≤ s.length := by
  by_contra hc
  push_neg at hc
  have h1 : (s.drop j).length < p.length := by
    rw [List.length_drop]; omega
  have h2 := congrArg List.length (matchAt_take h)
  rw [List.length_take] at h2
  have h3 : p.length ⊓ (s.drop j).length = (s.drop j).length := inf_eq_right.mpr h1.le
  rw [h3] at h2
  omega

lemma tryPoint_some {s p : List Char} {L e : Nat} (h : tryPoint s L p = some e) :
    ∃ j, matchAt s p j = true ∧ 0 < j ∧ j < L ∧ e = j + p.length := by
  unfold tryPoint at h
  cases hm : lastMatchLe s p L with
  | none => rw [hm] at h; exact absurd h (by simp)
  | some j =>
    rw [hm] at h
    dsimp only at h
    by_cases hc : 0 < j ∧ j < L
    · rw [if_pos hc] at h
      exact ⟨j, List.find?_some hm, hc.1, hc.2, (Option.some.injEq _ _ ▸ h).symm⟩
    · rw [if_neg hc] at h
      exact absurd h (by simp)

lemma findSplit_some {s : List Char} {L e : Nat} (h : findSplit s L = some e) :
    ∃ p ∈ splitPoints, ∃ j, matchAt s p j = true ∧ 0 < j ∧ j < L ∧
      e = j + p.length := by
  obtain ⟨p, hp, ht⟩ := List.exists_of_findSome?_eq_some h
  obtain ⟨j, h1, h2, h3, h4⟩ := tryPoint_some ht
  exact ⟨p, hp, j, h1, h2, h3, h4⟩

lemma splitPoints_len : ∀ p ∈ splitPoints, 1 ≤ p.length ∧ p.length ≤ 2 := by decide

/-- Both the marker cut and the hard split land strictly after the cursor:
the loop of `splitTextSafe` always makes progress when `maxLength ≥ 1`. -/
lemma chunkEnd_pos {s : List Char} {L : Nat} (hL : 1 ≤ L) : 1 ≤ chunkEnd s L := by
  unfold chunkEnd
  cases h : findSplit s L with
  | none => simpa using hL
  | some e =>
    obtain ⟨p, hp, j, _, h0, _, he⟩ := findSplit_some h
    have := (splitPoints_len p hp).1
    simp only [Option.getD_some]
    omega

/-- The next chunk never extends more than one character past the budget. -/
lemma chunkEnd_le {s : List Char} {L : Nat} : chunkEnd s L ≤ L + 1 := by
  unfold chunkEnd
  cases h : findSplit s L with
  | none => simp
  | some e =>
    obtain ⟨p, hp, j, _, _, hj, he⟩ := findSplit_some h
    have := (splitPoints_len p hp).2
    simp only [Option.getD_some]
    omega

lemma chunkEnd_le_length {s : List Char} {L : Nat} (hL : L ≤ s.length) :
    chunkEnd s L ≤ s.length := by
  unfold chunkEnd
  cases h : findSplit s L with
  | none => simpa using hL
  | some e =>
    obtain ⟨p, hp, j, hm, _, _, he⟩ := findSplit_some h
    have := matchAt_le_length hm (splitPoints_len p hp).1
    simp only [Option.getD_some]
    omega

/-- Main invariant of the splitting loop: with positive budget and enough
fuel it returns chunks that are nonempty, joinable back to the input, at
most one character over budget, and over budget only in a chunk ending in
a two-character sentence marker. -/
lemma splitGo_spec : ∀ (fuel L : Nat) (s : List Char), 1 ≤ L → s.length ≤ fuel →
    ∃ r, splitGo fuel L s = some r ∧ r.flatten = s ∧
      ∀ c ∈ r, c ≠ [] ∧ c.length ≤ L + 1 ∧
        (L < c.length → ∃ p ∈ splitPoints, p.length = 2 ∧ p <:+ c) := by
  intro fuel
  induction fuel with
  | zero =>
    intro L s _ hf
    have hs : s = [] := List.length_eq_zero.mp (Nat.le_zero.mp hf)
    subst hs
    exact ⟨[], by simp [splitGo], by simp, by simp⟩
  | succ fuel ih =>
    intro L s hL hf
    by_cases hs : s = []
    · subst hs
      exact ⟨[], by simp [splitGo], by simp, by simp⟩
    · by_cases hlen : s.length ≤ L
      · refine ⟨[s], by simp [splitGo, hs, hlen], by simp, ?_⟩
        intro c hc
        rw [List.mem_singleton] at hc
        subst hc
        exact ⟨hs, by omega, fun hor => absurd hor (by omega)⟩
      · push_neg at hlen
        have hlen' : ¬ s.length ≤ L := by omega
        have he1 : 1 ≤ chunkEnd s L := chunkEnd_pos hL
        have heL : chunkEnd s L ≤ L + 1 := chunkEnd_le
        have helen : chunkEnd s L ≤ s.length := chunkEnd_le_length hlen.le
        have hdrop : (s.drop (chunkEnd s L)).length ≤ fuel := by
          rw [List.length_drop]; omega
        obtain ⟨rest, hrest, hjoin, hprops⟩ := ih L (s.drop (chunkEnd s L)) hL hdrop
        refine ⟨s.take (chunkEnd s L) :: rest, ?_, ?_, ?_⟩
        · simp [splitGo, hs, hlen', hrest]
        · simp only [List.flatten_cons, hjoin, List.take_append_drop]
        · intro c hc
          rcases List.mem_cons.mp hc with hhead | htail
          · subst hhead
            have hlt : (s.take (chunkEnd s L)).length = chunkEnd s L := by
              rw [List.length_take]; exact inf_eq_left.mpr helen
            refine ⟨?_, by omega, ?_⟩
            · intro hnil
              rw [hnil] at hlt
              simp at hlt
              omega
            · intro hover
              rw [hlt] at hover
              have heq : chunkEnd s L = L + 1 := by omega
              cases hfs : findSplit s L with
              | none =>
                rw [chunkEnd, hfs, Option.getD_none] at heq
                omega
              | some e =>
                have hee : e = L + 1 := by
                  rw [chunkEnd, hfs, Option.getD_some] at heq
                  exact heq
                obtain ⟨p, hp, j, hm, h0, hj, hejp⟩ := findSplit_some hfs
                have hp2 : p.length = 2 := by
                  have := (splitPoints_len p hp).2
                  omega
                have hjL : j = L - 1 := by omega
                refine ⟨p, hp, hp2, (s.take (chunkEnd s L)).take (L - 1), ?_⟩
                have hdt : (s.take (chunkEnd s L)).drop (L - 1) = p := by
                  rw [heq, List.drop_take]
                  have h2 : (L + 1) - (L - 1) = 2 := by omega
                  rw [h2, ← hp2, ← hjL]
                  exact matchAt_take hm
                rw [← hdt]
                exact List.take_append_drop _ _
          · exact hprops c htail

/-- For positive budget, the loop with fuel `= text.length` succeeds, so
`splitTextSafe` computes the true result of the loop. -/
lemma splitTextSafe_eq {text : List Char} {maxLength : Nat} (h : 1 ≤ maxLength) :
    splitGo text.length maxLength text = some (splitTextSafe text maxLength) := by
  obtain ⟨r, hr, _, _⟩ := splitGo_spec text.length maxLength text h (le_refl _)
  rw [splitTextSafe, hr]
  rfl

/-- With a zero budget the loop never advances: the hard split sets
`end = start`, so no fuel is ever enough on a nonempty input. -/
lemma chunkEnd_zero (s : List Char) : chunkEnd s 0 = 0 := by
  have htry : ∀ p, tryPoint s 0 p = none := by
    intro p
    unfold tryPoint
    cases lastMatchLe s p 0 with
    | none => rfl
    | some j =>
      dsimp only
      rw [if_neg]
      rintro ⟨_, hj⟩
      exact Nat.not_lt_zero _ hj

  simp [chunkEnd, findSplit, splitPoints, List.findSome?, htry]

lemma splitGo_zero : ∀ (fuel : Nat) (s : List Char), s ≠ [] →
    splitGo fuel 0 s = none := by
  intro fuel
  induction fuel with
  | zero => intro s hs; simp [splitGo, hs]
  | succ fuel ih =>
    intro s hs
    have hlen : ¬ s.length ≤ 0 := by
      simp only [Nat.le_zero, List.length_eq_zero]
      exact hs
    simp [splitGo, hs, hlen, chunkEnd_zero, ih s hs]

lemma length_le_flatten_length : ∀ (r : List (List Char)),
    (∀ c ∈ r, c ≠ []) → r.length ≤ r.flatten.length := by
  intro r
  induction r with
  | nil => simp
  | cons c r ih =>
    intro h
    have hc : c ≠ [] := h c (List.mem_cons_self c r)
    have h1 : 1 ≤ c.length := by
      rcases Nat.eq_zero_or_pos c.length with h0 | h0
      · exact absurd (List.length_eq_zero.mp h0) hc
      · exact h0
    have h2 := ih (fun d hd => h d (List.mem_cons_of_mem _ hd))
    simp only [List.flatten_cons, List.length_cons, List.length_append]
    omega

/-! ## Claims about the text chunker -/

/-- C1: for every string `T` and every integer `maxLength ≥ 1`,
concatenating in order all chunks returned by `splitTextSafe(T, maxLength)`
yields exactly `T`: no characters are dropped or duplicated at chunk
boundaries. -/
theorem splitTextSafe_reconstruction (text : List Char) (maxLength : Nat)
    (h : 1 ≤ maxLength) :
    (splitTextSafe text maxLength).flatten = text := by
  obtain ⟨r, hr, hflat, _⟩ :=
    splitGo_spec text.length maxLength text h (le_refl _)
  rw [splitTextSafe, hr, Option.getD_some, hflat]

/-- Witness for C1 at the example text and budget used by the spec. -/
theorem splitTextSafe_reconstruction_witness :
    1 ≤ 20 ∧ (splitTextSafe "Hello world. Next sentence here".toList 20).flatten =
      "Hello world. Next sentence here".toList :=
  ⟨by decide, splitTextSafe_reconstruction _ 20 (by decide)⟩

/-- C2 counterexample: `splitTextSafe("a. bcd", 2)` returns the chunk
`"a. "` of length 3 > 2 even though that chunk contains boundary markers
(it is not an indivisible run of non-boundary characters): a two-character
marker whose last occurrence starts at index `maxLength - 1` makes the cut
land at `maxLength + 1`. -/
theorem splitTextSafe_bound_counterexample :
    splitTextSafe "a. bcd".toList 2 = ["a. ".toList, "bc".toList, "d".toList] ∧
    ("a. ".toList).length = 3 ∧ 2 < ("a. ".toList).length ∧
    hasMarker "a. ".toList = true := by decide

/-- C2 (amended): for every string and `maxLength ≥ 1`, every chunk has
length at most `maxLength + 1`; a chunk longer than `maxLength` ends in a
two-character sentence marker straddling the candidate end (a hard split
cuts at exactly `maxLength`, so no indivisible run is ever returned whole
over budget). -/
theorem splitTextSafe_chunk_bound (text : List Char) (maxLength : Nat)
    (h : 1 ≤ maxLength) :
    ∀ c ∈ splitTextSafe text maxLength, c.length ≤ maxLength + 1 ∧
      (maxLength < c.length → ∃ p ∈ splitPoints, p.length = 2 ∧ p <:+ c) := by
  obtain ⟨r, hr, _, hprops⟩ :=
    splitGo_spec text.length maxLength text h (le_refl _)
  rw [splitTextSafe, hr, Option.getD_some]
  exact fun c hc => ⟨(hprops c hc).2.1, (hprops c hc).2.2⟩

/-- Witness for C2 (amended) at the counterexample input. -/
theorem splitTextSafe_chunk_bound_witness :
    ("a. ".toList).length ≤ 2 + 1 :=
  (splitTextSafe_chunk_bound "a. bcd".toList 2 (by decide) "a. ".toList
    (by decide)).1

/-- C5 counterexample: in `splitTextSafe("a. b . xy", 5)` the sentence
marker `". "` occurs at index 1, strictly after the cursor and before the
candidate end 5, yet the first chunk is cut after the bare space at index
4 (closer to the candidate end): the last occurrence of `". "` at or
before the candidate end starts at index 5 itself, fails the
`lastPointIndex < end` test, and shadows the earlier valid occurrence, so
the search falls through to the lower-preference space marker. -/
theorem splitTextSafe_preference_counterexample :
    splitTextSafe "a. b . xy".toList 5 = ["a. b ".toList, ". xy".toList] ∧
    matchAt "a. b . xy".toList ". ".toList 1 = true ∧
    0 < 1 ∧ 1 < 5 ∧
    "a. b ".toList ≠ "a. ".toList := by decide

/-- C5 (amended): the cut honours preference order with respect to the
LAST occurrence of each marker at or before the candidate end: whenever
the last occurrence of the sentence marker `". "` at or before the
candidate end lies strictly after the cursor and strictly before the
candidate end, the chunk is cut immediately after it, regardless of any
nearer bare space.  In particular `splitTextSafe("Hello world. Next
sentence here", 20)` cuts after `"Hello world. "`. -/
theorem splitTextSafe_preference (s : List Char) (L j : Nat)
    (hlen : L < s.length) (hm : lastMatchLe s ". ".toList L = some j)
    (h0 : 0 < j) (hj : j < L) :
    (splitTextSafe s L).head? = some (s.take (j + 2)) ∧
    splitTextSafe "Hello world. Next sentence here".toList 20 =
      ["Hello world. ".toList, "Next sentence here".toList] := by
  refine ⟨?_, by decide⟩
  have hL : 2 ≤ L := by omega
  have htry : tryPoint s L ". ".toList = some (j + 2) := by
    unfold tryPoint
    rw [hm]
    dsimp only
    rw [if_pos ⟨h0, hj⟩]
    rfl
  have htry' : tryPoint s L ['.', ' '] = some (j + 2) := htry
  have hfs : findSplit s L = some (j + 2) := by
    rw [findSplit, splitPoints]
    simp [List.findSome?, htry']
  have hce : chunkEnd s L = j + 2 := by
    rw [chunkEnd, hfs, Option.getD_some]
  obtain ⟨m, hm'⟩ : ∃ m, s.length = m + 1 := ⟨s.length - 1, by omega⟩
  have hs : ¬ s = [] := by
    intro hnil
    rw [hnil] at hm'
    simp at hm'
  have hlen' : ¬ s.length ≤ L := by omega
  have hdrop : (s.drop (chunkEnd s L)).length ≤ m := by
    rw [List.length_drop]
    have := chunkEnd_pos (s := s) (L := L) (by omega)
    omega
  obtain ⟨rest, hrest, _, _⟩ :=
    splitGo_spec m L (s.drop (chunkEnd s L)) (by omega) hdrop
  have hgo : splitGo s.length L s =
      some (s.take (chunkEnd s L) :: rest) := by
    rw [hm']
    simp [splitGo, hs, hlen', hrest]
  rw [splitTextSafe, hgo, Option.getD_some, hce]
  rfl

/-- Witness for C5 (amended) at the boundary-preference example of the spec:
`". "` last occurs at or before index 20 at index 11, giving the cut after
`"Hello world. "`. -/
theorem splitTextSafe_preference_witness :
    (splitTextSafe "Hello world. Next sentence here".toList 20).head? =
      some ("Hello world. Next sentence here".toList.take (11 + 2)) :=
  (splitTextSafe_preference "Hello world. Next sentence here".toList 20 11
    (by decide) (by decide) (by decide) (by decide)).1

/-- C7 counterexample: `splitTextSafe("a. bcdef", 4)` returns 3 chunks,
but the splitting `["a. b", "cdef"]` also reconstructs the text with every
chunk within the budget 4, using only 2 chunks: the chunk count is not
minimized subject to the per-chunk bound. -/
theorem splitTextSafe_count_counterexample :
    (splitTextSafe "a. bcdef".toList 4).length = 3 ∧
    ["a. b".toList, "cdef".toList].flatten = "a. bcdef".toList ∧
    ("a. b".toList).length ≤ 4 ∧ ("cdef".toList).length ≤ 4 ∧
    (["a. b".toList, "cdef".toList] : List (List Char)).length = 2 ∧
    2 < 3 := by decide

/-- C7 (amended): the chunk count is not minimal in general; what holds is
that every chunk is nonempty, so `splitTextSafe` returns at most
`T.length` chunks. -/
theorem splitTextSafe_count_le (text : List Char) (maxLength : Nat)
    (h : 1 ≤ maxLength) :
    (∀ c ∈ splitTextSafe text maxLength, c ≠ []) ∧
    (splitTextSafe text maxLength).length ≤ text.length := by
  obtain ⟨r, hr, hflat, hprops⟩ :=
    splitGo_spec text.length maxLength text h (le_refl _)
  rw [splitTextSafe, hr, Option.getD_some]
  refine ⟨fun c hc => (hprops c hc).1, ?_⟩
  have := length_le_flatten_length r (fun c hc => (hprops c hc).1)
  rw [hflat] at this
  exact this

/-- Witness for C7 (amended) at the counterexample input. -/
theorem splitTextSafe_count_le_witness :
    (∀ c ∈ splitTextSafe "a. bcdef".toList 4, c ≠ []) ∧
    (splitTextSafe "a. bcdef".toList 4).length ≤ ("a. bcdef".toList).length :=
  splitTextSafe_count_le "a. bcdef".toList 4 (by decide)

/-- C9: `splitTextSafe` terminates for every input when `maxLength ≥ 1`
(the loop with fuel `text.length` reaches its base case, because both the
marker cut and the hard split place the chunk end strictly after the
cursor: `1 ≤ chunkEnd`); for `maxLength = 0` and nonempty input the loop
never advances, so no amount of fuel suffices. -/
theorem splitTextSafe_termination (text : List Char) (maxLength fuel : Nat)
    (hL : 1 ≤ maxLength) (hf : text.length ≤ fuel) :
    (splitGo fuel maxLength text).isSome = true ∧
    1 ≤ chunkEnd text maxLength ∧
    (text = [] ∨ splitGo fuel 0 text = none) := by
  refine ⟨?_, chunkEnd_pos hL, ?_⟩
  · obtain ⟨r, hr, _, _⟩ := splitGo_spec fuel maxLength text hL hf
    rw [hr]
    rfl
  · by_cases hs : text = []
    · exact Or.inl hs
    · exact Or.inr (splitGo_zero fuel text hs)

/-- Witness for C9 at a concrete nonempty text. -/
theorem splitTextSafe_termination_witness :
    (splitGo 2 1 "ab".toList).isSome = true ∧
    1 ≤ chunkEnd "ab".toList 1 ∧
    ("ab".toList = [] ∨ splitGo 2 0 "ab".toList = none) :=
  splitTextSafe_termination "ab".toList 1 2 (by decide) (by decide)

/-! ## The chunked speech synthesizer (`generateSpeech`) -/

/-- Whitespace test backing JavaScript `chunk.trim()` (the characters that
occur in text handled by this pipeline). -/
def isWS (c : Char) : Bool := c = ' ' || c = '\n' || c = '\t' || c = '\r'

/-- Blank test (`!chunk.trim()`): the chunk is empty or whitespace-only, so
`generateSpeech` skips it without issuing a request (`continue`). -/
def blank (c : List Char) : Bool := c.all isWS

/-- Constant `TTS_CHUNK_SIZE` from `src/constants.ts`. -/
def TTS_CHUNK_SIZE : Nat := 3000

/-- The single user-facing synthesis failure: every error thrown inside
`generateSpeech` — a transport failure of a per-chunk request or the
`"No audio generated from text."` all-chunks-empty case — is caught and
resurfaced as `Error("Failed to generate speech audio.")`. -/
inductive SynthErr where
  | synthesisError
  deriving DecidableEq

/-- A per-chunk response oracle for the speech-synthesis collaborator,
indexed by the sequence index and text of the chunk: `Except.error ()` models
the request throwing (transport-level failure); `Except.ok none` a
response carrying no audio payload
(`response.candidates?.[0]?.content?.parts?.[0]?.inlineData?.data`
absent); `Except.ok (some bytes)` a response whose base64 payload decodes
to `bytes`. -/
abbrev SynthRespond := Nat → List Char → Except Unit (Option (List Nat))

/-- The `for (const [index, chunk] of chunks.entries())` loop of
`generateSpeech`: first component is the collected decoded payloads in
order (`none` when some request threw, aborting the loop), second the
requests actually issued, in order. -/
def synthLoop (respond : SynthRespond) :
    List (Nat × List Char) → Option (List (List Nat)) × List (Nat × List Char)
  | [] => (some [], [])
  | (i, c) :: rest =>
    if blank c then synthLoop respond rest
    else
      match respond i c with
      | .error _ => (none, [(i, c)])
      | .ok none =>
        let r := synthLoop respond rest
        (r.1, (i, c) :: r.2)
      | .ok (some bytes) =>
        let r := synthLoop respond rest
        ((r.1).map (fun parts => bytes :: parts), (i, c) :: r.2)

/-- Model of `generateSpeech` from `src/services/geminiService.ts`: split
the text with `splitTextSafe(text, TTS_CHUNK_SIZE)`, request synthesis for
each non-blank chunk in sequence, skip chunks whose response has no
payload, fail with the single `SynthesisError` when a request throws or
when no chunk yielded audio, and otherwise return the byte-wise
concatenation of the collected payloads (the merged PCM stream prior to
the final `bytesToBase64` re-encoding, which lives in
`utils/audioHelper`). -/
def generateSpeech (respond : SynthRespond) (text : List Char) :
    Except SynthErr (List Nat) :=
  match (synthLoop respond (splitTextSafe text TTS_CHUNK_SIZE).enum).1 with
  | none => .error .synthesisError
  | some parts => if parts = [] then .error .synthesisError else .ok parts.flatten

/-- The per-chunk requests `generateSpeech` issues, in order. -/
def generateSpeechRequests (respond : SynthRespond) (text : List Char) :
    List (Nat × List Char) :=
  (synthLoop respond (splitTextSafe text TTS_CHUNK_SIZE).enum).2

/-- The decoded payloads of the present chunks (non-blank chunks whose
response carried audio), in original chunk order. -/
def presentPayloads (respond : SynthRespond) (cs : List (Nat × List Char)) :
    List (List Nat) :=
  cs.filterMap (fun ic =>
    if blank ic.2 then none
    else
      match respond ic.1 ic.2 with
      | .ok (some bytes) => some bytes
      | _ => none)

lemma synthLoop_ok (respond : SynthRespond)
    (hok : ∀ i c, respond i c ≠ .error ()) :
    ∀ cs : List (Nat × List Char),
      (synthLoop respond cs).1 = some (presentPayloads respond cs) := by
  intro cs
  induction cs with
  | nil => rfl
  | cons ic rest ih =>
    obtain ⟨i, c⟩ := ic
    by_cases hb : blank c
    · simp [synthLoop, presentPayloads, hb] at ih ⊢
      exact ih
    · cases hr : respond i c with
      | error u =>
        cases u
        exact absurd hr (hok i c)
      | ok o =>
        cases o with
        | none =>
          simp [synthLoop, presentPayloads, hb, hr] at ih ⊢
          exact ih
        | some bytes =>
          simp [synthLoop, presentPayloads, hb, hr, ih]

/-- C3: with no request throwing, `generateSpeech` fails with the single
`SynthesisError` when every per-chunk response carries no audio payload,
and succeeds otherwise with the merged stream equal to the byte-wise
concatenation of exactly the decoded bytes of the present chunks, in original
chunk order. -/
theorem generateSpeech_merge (text : List Char) (respond : SynthRespond)
    (hok : ∀ i c, respond i c ≠ .error ()) :
    ((∀ i c, respond i c = .ok none) →
      generateSpeech respond text = .error .synthesisError) ∧
    (presentPayloads respond (splitTextSafe text TTS_CHUNK_SIZE).enum ≠ [] →
      generateSpeech respond text =
        .ok (presentPayloads respond
          (splitTextSafe text TTS_CHUNK_SIZE).enum).flatten) := by
  constructor
  · intro hnone
    have hemp : presentPayloads respond (splitTextSafe text TTS_CHUNK_SIZE).enum
        = [] := by
      rw [presentPayloads, List.filterMap_eq_nil_iff]
      intro ic _
      by_cases hb : blank ic.2
      · simp [hb]
      · simp [hb, hnone ic.1 ic.2]
    rw [generateSpeech, synthLoop_ok respond hok, hemp]
    rfl
  · intro hne
    rw [generateSpeech, synthLoop_ok respond hok]
    dsimp only
    rw [if_neg hne]

/-- Witness for C3 at a single-chunk text: a response carrying no audio
fails with `SynthesisError`, and a response decoding to `[7, 8]` succeeds
with the merged stream of exactly the present payloads. -/
theorem generateSpeech_merge_witness :
    generateSpeech (fun _ _ => .ok none) "hi".toList =
      .error .synthesisError ∧
    generateSpeech (fun _ _ => .ok (some [7, 8])) "hi".toList =
      .ok (presentPayloads (fun _ _ => .ok (some [7, 8]))
        (splitTextSafe "hi".toList TTS_CHUNK_SIZE).enum).flatten :=
  ⟨(generateSpeech_merge "hi".toList (fun _ _ => .ok none)
      (fun _ _ h => by cases h)).1 (fun _ _ => rfl),
   (generateSpeech_merge "hi".toList (fun _ _ => .ok (some [7, 8]))
      (fun _ _ h => by cases h)).2 (by decide)⟩

lemma synthLoop_requests_sublist (respond : SynthRespond) :
    ∀ cs : List (Nat × List Char), List.Sublist (synthLoop respond cs).2 cs := by
  intro cs
  induction cs with
  | nil => exact List.Sublist.refl _
  | cons ic rest ih =>
    obtain ⟨i, c⟩ := ic
    by_cases hb : blank c
    · simp only [synthLoop, hb, if_pos]
      exact ih.cons _
    · cases hr : respond i c with
      | error u =>
        simp only [synthLoop, hb, if_neg, hr]
        simp
      | ok o =>
        cases o with
        | none =>
          simp only [synthLoop, hb, if_neg, hr]
          exact ih.cons₂ _
        | some bytes =>
          simp only [synthLoop, hb, if_neg, hr]
          exact ih.cons₂ _

lemma getLast?_cons_of_getLast?_some {α : Type} {l : List α} {a b : α}
    (h : l.getLast? = some b) : (a :: l).getLast? = some b := by
  cases l with
  | nil => cases h
  | cons x xs => rw [List.getLast?_cons_cons]; exact h

lemma synthLoop_error_mem (respond : SynthRespond) :
    ∀ (cs : List (Nat × List Char)) (i : Nat) (c : List Char),
      (i, c) ∈ (synthLoop respond cs).2 → respond i c = .error () →
      (synthLoop respond cs).1 = none ∧
      ((synthLoop respond cs).2).getLast? = some (i, c) := by
  intro cs
  induction cs with
  | nil => intro i c hmem; simp [synthLoop] at hmem
  | cons ic rest ih =>
    obtain ⟨i0, c0⟩ := ic
    intro i c hmem herr
    by_cases hb : blank c0
    · simp only [synthLoop, hb, if_pos] at hmem ⊢
      exact ih i c hmem herr
    · cases hr : respond i0 c0 with
      | error u =>
        simp only [synthLoop, hb, if_neg, hr] at hmem ⊢
        simp at hmem
        obtain ⟨h1, h2⟩ := hmem
        subst h1
        subst h2
        exact ⟨rfl, rfl⟩
      | ok o =>
        have hnothd : ¬ (i, c) = (i0, c0) := by
          intro hhd
          injection hhd with h1 h2
          subst h1
          subst h2
          rw [hr] at herr
          cases herr
        cases o with
        | none =>
          simp only [synthLoop, hb, if_neg, hr] at hmem ⊢
          rcases List.mem_cons.mp hmem with hhd | htl
          · exact absurd hhd hnothd
          · obtain ⟨h1, h2⟩ := ih i c htl herr
            exact ⟨h1, getLast?_cons_of_getLast?_some h2⟩
        | some bytes =>
          simp only [synthLoop, hb, if_neg, hr] at hmem ⊢
          rcases List.mem_cons.mp hmem with hhd | htl
          · exact absurd hhd hnothd
          · obtain ⟨h1, h2⟩ := ih i c htl herr
            rw [h1]
            exact ⟨rfl, getLast?_cons_of_getLast?_some h2⟩

/-- C4: if an issued per-chunk request throws a transport failure,
`generateSpeech` aborts: it fails with the single `SynthesisError` (never
a partial merged stream), the failing request is the last one issued, and
no chunk index is ever requested twice (no retry). -/
theorem generateSpeech_abort (text : List Char) (respond : SynthRespond)
    (i : Nat) (c : List Char)
    (hmem : (i, c) ∈ generateSpeechRequests respond text)
    (herr : respond i c = .error ()) :
    generateSpeech respond text = .error .synthesisError ∧
    (generateSpeechRequests respond text).getLast? = some (i, c) ∧
    ((generateSpeechRequests respond text).map Prod.fst).Nodup := by
  obtain ⟨h1, h2⟩ := synthLoop_error_mem respond
    (splitTextSafe text TTS_CHUNK_SIZE).enum i c hmem herr
  refine ⟨?_, h2, ?_⟩
  · rw [generateSpeech, h1]
  · have hsub := synthLoop_requests_sublist respond
      (splitTextSafe text TTS_CHUNK_SIZE).enum
    have hmap := hsub.map Prod.fst
    rw [List.enum_map_fst] at hmap
    exact (List.nodup_range _).sublist hmap

/-- Witness for C4: a failing single-chunk request yields the single
`SynthesisError`, with that request last and issued once. -/
theorem generateSpeech_abort_witness :
    generateSpeech (fun _ _ => .error ()) "hi".toList =
      .error .synthesisError ∧
    (generateSpeechRequests (fun _ _ => .error ()) "hi".toList).getLast? =
      some (0, "hi".toList) ∧
    ((generateSpeechRequests (fun _ _ => .error ()) "hi".toList).map
      Prod.fst).Nodup :=
  generateSpeech_abort "hi".toList (fun _ _ => .error ()) 0 "hi".toList
    (by decide) rfl

/-! ## The waveform renderer (`drawWaveform` in the audio player component)

Samples are modelled as rationals: the renderer only compares samples
(`if (datum < min) ...`, `if (datum > max) ...`), so min/max selection is
exact in any ordered field and no floating-point rounding is involved. -/

/-- Ceiling division `Math.ceil(data.length / width)` for a positive integer `width`: the
window (`step`) size of `drawWaveform`. -/
def windowSize (sampleCount width : Nat) : Nat :=
  (sampleCount + width - 1) / width

/-- The inner `for (let j = 0; j < step; j++)` loop of `drawWaveform`,
folding min and max over the window starting at absolute index `base`.
An out-of-range access (`data[i * step + j]` is `undefined` in JavaScript)
leaves both accumulators unchanged, because `undefined < min` and
`undefined > max` are both false. -/
def colLoop (samples : List ℚ) : Nat → Nat → ℚ × ℚ → ℚ × ℚ
  | _, 0, mm => mm
  | base, count + 1, mm =>
    colLoop samples (base + 1) count
      (match samples[base]? with
       | some d => (if d < mm.1 then d else mm.1, if mm.2 < d then d else mm.2)
       | none => mm)

/-- One column of `drawWaveform`: `let min = 1.0; let max = -1.0;` then
the window fold. -/
def renderColumn (samples : List ℚ) (base count : Nat) : ℚ × ℚ :=
  colLoop samples base count (1, -1)

/-- The column loop of `drawWaveform` (`for (let i = 0; i < width; i++)`),
generalised over the column count (the canvas width, 600 in the
component). -/
def renderColumns (samples : List ℚ) (width : Nat) : List (ℚ × ℚ) :=
  (List.range width).map (fun i =>
    renderColumn samples (i * windowSize samples.length width)
      (windowSize samples.length width))

/-- The in-bounds part of the window of column `i`: the samples from
`i * step` to `i * step + step` (exclusive). -/
def columnWindow (samples : List ℚ) (width i : Nat) : List ℚ :=
  (samples.drop (i * windowSize samples.length width)).take
    (windowSize samples.length width)

lemma colLoop_eq_foldl (samples : List ℚ) :
    ∀ (count base : Nat) (mm : ℚ × ℚ),
      colLoop samples base count mm =
        ((samples.drop base).take count).foldl
          (fun mm d =>
            (if d < mm.1 then d else mm.1, if mm.2 < d then d else mm.2)) mm := by
  intro count
  induction count with
  | zero => intro base mm; simp [colLoop]
  | succ count ih =>
    intro base mm
    cases hg : samples[base]? with
    | none =>
      have hlen : samples.length ≤ base := by
        by_contra hcon
        push_neg at hcon
        rw [List.getElem?_eq_getElem hcon] at hg
        cases hg
      have hdrop : samples.drop base = [] := List.drop_eq_nil_iff.mpr hlen
      have hdrop1 : samples.drop (base + 1) = [] :=
        List.drop_eq_nil_iff.mpr (by omega)
      simp only [colLoop, hg]
      rw [ih (base + 1) mm, hdrop, hdrop1]
      simp [List.take_nil]
    | some d =>
      have hlt : base < samples.length := by
        by_contra hcon
        push_neg at hcon
        rw [List.getElem?_eq_none hcon] at hg
        cases hg
      have hd : samples[base] = d := by
        rw [List.getElem?_eq_getElem hlt] at hg
        injection hg
      have hdropc : samples.drop base = d :: samples.drop (base + 1) := by
        rw [List.drop_eq_getElem_cons hlt, hd]
      simp only [colLoop, hg]
      rw [ih (base + 1) _, hdropc, List.take_succ_cons, List.foldl_cons]

lemma foldl_pair_fst (w : List ℚ) : ∀ mm : ℚ × ℚ,
    (w.foldl (fun mm d =>
        (if d < mm.1 then d else mm.1, if mm.2 < d then d else mm.2)) mm).1 =
      w.foldl (fun m d => if d < m then d else m) mm.1 := by
  induction w with
  | nil => intro mm; rfl
  | cons d w ih => intro mm; rw [List.foldl_cons, List.foldl_cons, ih]

lemma foldl_pair_snd (w : List ℚ) : ∀ mm : ℚ × ℚ,
    (w.foldl (fun mm d =>
        (if d < mm.1 then d else mm.1, if mm.2 < d then d else mm.2)) mm).2 =
      w.foldl (fun m d => if m < d then d else m) mm.2 := by
  induction w with
  | nil => intro mm; rfl
  | cons d w ih => intro mm; rw [List.foldl_cons, List.foldl_cons, ih]

lemma foldl_min_le_init (w : List ℚ) : ∀ m : ℚ,
    w.foldl (fun m d => if d < m then d else m) m ≤ m := by
  induction w with
  | nil => intro m; exact le_refl m
  | cons d w ih =>
    intro m
    rw [List.foldl_cons]
    refine le_trans (ih _) ?_
    split
    · exact le_of_lt (by assumption)
    · exact le_refl m

lemma foldl_min_le_mem (w : List ℚ) : ∀ (m : ℚ), ∀ x ∈ w,
    w.foldl (fun m d => if d < m then d else m) m ≤ x := by
  induction w with
  | nil => intro m x hx; cases hx
  | cons d w ih =>
    intro m x hx
    rw [List.foldl_cons]
    rcases List.mem_cons.mp hx with h | h
    · subst h
      refine le_trans (foldl_min_le_init w _) ?_
      split
      · exact le_refl x
      · exact le_of_not_lt (by assumption)
    · exact ih _ x h

lemma foldl_min_mem_or_init (w : List ℚ) : ∀ m : ℚ,
    w.foldl (fun m d => if d < m then d else m) m = m ∨
      w.foldl (fun m d => if d < m then d else m) m ∈ w := by
  induction w with
  | nil => intro m; exact Or.inl rfl
  | cons d w ih =>
    intro m
    rw [List.foldl_cons]
    rcases ih (if d < m then d else m) with h | h
    · rw [h]
      split
      · exact Or.inr (List.mem_cons_self _ _)
      · exact Or.inl rfl
    · exact Or.inr (List.mem_cons_of_mem _ h)

lemma foldl_max_init_le (w : List ℚ) : ∀ m : ℚ,
    m ≤ w.foldl (fun m d => if m < d then d else m) m := by
  induction w with
  | nil => intro m; exact le_refl m
  | cons d w ih =>
    intro m
    rw [List.foldl_cons]
    refine le_trans ?_ (ih _)
    split
    · exact le_of_lt (by assumption)
    · exact le_refl m

lemma foldl_max_mem_le (w : List ℚ) : ∀ (m : ℚ), ∀ x ∈ w,
    x ≤ w.foldl (fun m d => if m < d then d else m) m := by
  induction w with
  | nil => intro m x hx; cases hx
  | cons d w ih =>
    intro m x hx
    rw [List.foldl_cons]
    rcases List.mem_cons.mp hx with h | h
    · subst h
      refine le_trans ?_ (foldl_max_init_le w _)
      split
      · exact le_refl x
      · exact le_of_not_lt (by assumption)
    · exact ih _ x h

lemma foldl_max_mem_or_init (w : List ℚ) : ∀ m : ℚ,
    w.foldl (fun m d => if m < d then d else m) m = m ∨
      w.foldl (fun m d => if m < d then d else m) m ∈ w := by
  induction w with
  | nil => intro m; exact Or.inl rfl
  | cons d w ih =>
    intro m
    rw [List.foldl_cons]
    rcases ih (if m < d then d else m) with h | h
    · rw [h]
      split
      · exact Or.inr (List.mem_cons_self _ _)
      · exact Or.inl rfl
    · exact Or.inr (List.mem_cons_of_mem _ h)

lemma renderColumns_getD (samples : List ℚ) (width i : Nat) (hi : i < width) :
    (renderColumns samples width).getD i (0, 0) =
      renderColumn samples (i * windowSize samples.length width)
        (windowSize samples.length width) := by
  rw [renderColumns, List.getD_eq_getElem?_getD, List.getElem?_map,
    List.getElem?_range hi]
  rfl

/-- C6 counterexample: on the empty sample array every window is empty,
and every rendered column is `(1, -1)` — the untouched loop
sentinels — not the claimed default `{min: 0, max: 0}`. -/
theorem renderColumns_default_counterexample :
    renderColumns [] 2 = [(1, -1), (1, -1)] ∧
    ((1 : ℚ), (-1 : ℚ)) ≠ ((0 : ℚ), (0 : ℚ)) := by
  refine ⟨rfl, ?_⟩
  intro h
  have h1 := congrArg Prod.fst h
  norm_num at h1

/-- C6 (amended): for every sample array and column count `N ≥ 1` the
renderer produces exactly `N` columns; a column whose window is nonempty
(samples in `[-1, 1]`) holds the minimum and maximum sample of its
contiguous window of size `ceil(sampleCount / N)`; a column whose window
is empty holds `{min: 1, max: -1}` (the loop sentinels) rather than
failing. -/
theorem renderColumns_spec (samples : List ℚ) (width : Nat) (_hw : 1 ≤ width)
    (hs : ∀ x ∈ samples, -1 ≤ x ∧ x ≤ 1) :
    (renderColumns samples width).length = width ∧
    ∀ i, i < width →
      (columnWindow samples width i = [] →
        (renderColumns samples width).getD i (0, 0) = (1, -1)) ∧
      (columnWindow samples width i ≠ [] →
        ((renderColumns samples width).getD i (0, 0)).1 ∈
            columnWindow samples width i ∧
        ((renderColumns samples width).getD i (0, 0)).2 ∈
            columnWindow samples width i ∧
        ∀ x ∈ columnWindow samples width i,
          ((renderColumns samples width).getD i (0, 0)).1 ≤ x ∧
          x ≤ ((renderColumns samples width).getD i (0, 0)).2) := by
  refine ⟨by simp [renderColumns], ?_⟩
  intro i hi
  rw [renderColumns_getD samples width i hi]
  have hcol : renderColumn samples (i * windowSize samples.length width)
      (windowSize samples.length width) =
      (columnWindow samples width i).foldl
        (fun mm d =>
          (if d < mm.1 then d else mm.1, if mm.2 < d then d else mm.2))
        (1, -1) := by
    rw [renderColumn, colLoop_eq_foldl, columnWindow]
  have hsub : ∀ x ∈ columnWindow samples width i, x ∈ samples := by
    intro x hx
    exact List.drop_subset _ _ (List.take_subset _ _ hx)
  constructor
  · intro hemp
    rw [hcol, hemp]
    rfl
  · intro hne
    obtain ⟨y, hy⟩ := List.exists_mem_of_ne_nil _ hne
    have hfst := foldl_pair_fst (columnWindow samples width i) (1, -1)
    have hsnd := foldl_pair_snd (columnWindow samples width i) (1, -1)
    rw [hcol]
    refine ⟨?_, ?_, ?_⟩
    · rw [hfst]
      rcases foldl_min_mem_or_init (columnWindow samples width i) 1 with h | h
      · have h1 := foldl_min_le_mem (columnWindow samples width i) 1 y hy
        rw [h] at h1
        have h2 := (hs y (hsub y hy)).2
        have hy1 : y = 1 := le_antisymm h2 h1
        rw [h, ← hy1]
        exact hy
      · exact h
    · rw [hsnd]
      rcases foldl_max_mem_or_init (columnWindow samples width i) (-1) with h | h
      · have h1 := foldl_max_mem_le (columnWindow samples width i) (-1) y hy
        rw [h] at h1
        have h2 := (hs y (hsub y hy)).1
        have hy1 : y = -1 := le_antisymm h1 h2
        rw [h, ← hy1]
        exact hy
      · exact h
    · intro x hx
      rw [hfst, hsnd]
      exact ⟨foldl_min_le_mem _ _ x hx, foldl_max_mem_le _ _ x hx⟩

/-- Witness for C6 (amended): with samples `[1/2, -1/4]` and one column,
the min of the single column is an element of its (full) window. -/
theorem renderColumns_spec_witness :
    ((renderColumns [(1 : ℚ)/2, -(1 : ℚ)/4] 1).getD 0 (0, 0)).1 ∈
      columnWindow [(1 : ℚ)/2, -(1 : ℚ)/4] 1 0 :=
  (((renderColumns_spec [(1 : ℚ)/2, -(1 : ℚ)/4] 1 (by decide)
    (by norm_num)).2 0 (by decide)).2 (by decide)).1

/-! ## Translation (`translateText`) -/

/-- ASCII lower-casing of one character, as JavaScript `toLowerCase()`
acts on the ASCII range (the matched word `"hindi"` is ASCII). -/
def toLowerAscii (c : Char) : Char :=
  if 'A' ≤ c ∧ c ≤ 'Z' then Char.ofNat (c.toNat + 32) else c

/-- Model of `targetLanguage.toLowerCase()`. -/
def lowerChars (s : List Char) : List Char := s.map toLowerAscii

/-- The matched substring in the lower-cased-includes test of
`translateText` (the word hindi). -/
def hindiWord : List Char := "hindi".toList

/-- The generic translation failure
(`throw new Error("Failed to translate text.")` from the catch block). -/
inductive TranslateErr where
  | translationError
  deriving DecidableEq

/-- The base prompt of `translateText`, with the target language name
interpolated. -/
def basePrompt (targetLanguage : List Char) : List Char :=
  "Translate the following text into ".toList ++ targetLanguage ++
    ". Ensure the translation is natural and suitable for an audiobook.".toList

/-- The informal-register (conversational Hindi) instruction appended for
Hindi targets.  The final bullet of the source literal (example English
loanwords in quotation marks) is elided here; the claims depend only on
whether the instruction block is appended, never on its tail text. -/
def hindiInstruction : List Char :=
  (" \nIMPORTANT INSTRUCTION: Use conversational, local speakable Hindi (Hinglish where appropriate for common technical or modern terms). \n      - Do NOT use pure, formal, or Sanskritized Hindi (Shuddh Hindi).\n      - It should sound like a natural conversation between friends.").toList

/-- The prompt built by `translateText`: the base prompt, plus the
informal-register instruction exactly when the lower-cased target
language name contains `"hindi"`. -/
def translatePrompt (targetLanguage : List Char) : List Char :=
  basePrompt targetLanguage ++
    (if containsSub (lowerChars targetLanguage) hindiWord then hindiInstruction
     else [])

/-- The full message sent to the translation collaborator: the prompt,
then the fixed text-to-translate header, then the quoted input text (the
template literal at the contents of the remote call). -/
def translateMessage (text targetLanguage : List Char) : List Char :=
  translatePrompt targetLanguage ++ "\n\nText to translate:\n\"".toList ++
    text ++ "\"".toList

/-- Model of `translateText` from `src/services/geminiService.ts`.  The
collaborator is an oracle from the sent message to either a thrown error
(`Except.error ()`), a response with no text payload (`Except.ok none`),
or a text payload.  `return response.text || ""` maps an absent payload to
the empty string; the catch block maps any thrown error to the generic
`TranslationError`. -/
def translateText (respond : List Char → Except Unit (Option (List Char)))
    (text targetLanguage : List Char) : Except TranslateErr (List Char) :=
  match respond (translateMessage text targetLanguage) with
  | .error _ => .error .translationError
  | .ok none => .ok []
  | .ok (some s) => .ok s

/-- C8: the informal-register instruction is included in the prompt sent
for translation if and only if the target language name contains
`"hindi"` as a case-insensitive substring; for every other target
language the plain base prompt is sent. -/
theorem translatePrompt_hindi (targetLanguage : List Char) :
    (containsSub (lowerChars targetLanguage) hindiWord = true ↔
      translatePrompt targetLanguage =
        basePrompt targetLanguage ++ hindiInstruction) ∧
    (containsSub (lowerChars targetLanguage) hindiWord = false →
      translatePrompt targetLanguage = basePrompt targetLanguage) := by
  refine ⟨⟨?_, ?_⟩, ?_⟩
  · intro h
    rw [translatePrompt, if_pos h]
  · intro h
    by_cases hc : containsSub (lowerChars targetLanguage) hindiWord = true
    · exact hc
    · exfalso
      rw [translatePrompt, if_neg hc, List.append_nil] at h
      have hlen := congrArg List.length h
      rw [List.length_append] at hlen
      have h0 : hindiInstruction.length = 0 := by omega
      have h1 : hindiInstruction.length ≠ 0 := by decide
      exact h1 h0
  · intro h
    rw [translatePrompt, if_neg (by rw [h]; exact Bool.false_ne_true),
      List.append_nil]

/-- Witness for C8: `"Hindi"` receives the instruction, `"French"` the
plain prompt. -/
theorem translatePrompt_hindi_witness :
    translatePrompt "Hindi".toList =
      basePrompt "Hindi".toList ++ hindiInstruction ∧
    translatePrompt "French".toList = basePrompt "French".toList :=
  ⟨(translatePrompt_hindi "Hindi".toList).1.mp (by decide),
   (translatePrompt_hindi "French".toList).2 (by decide)⟩

/-- C10: when the translation collaborator responds without throwing but
with an absent (or empty) text payload, `translateText` returns the empty
string as a successful result; the generic `TranslationError` is raised
exactly when the collaborator call throws. -/
theorem translateText_empty_payload
    (respond : List Char → Except Unit (Option (List Char)))
    (text targetLanguage : List Char) :
    (respond (translateMessage text targetLanguage) = .ok none →
      translateText respond text targetLanguage = .ok []) ∧
    (respond (translateMessage text targetLanguage) = .ok (some []) →
      translateText respond text targetLanguage = .ok []) ∧
    (translateText respond text targetLanguage = .error .translationError ↔
      respond (translateMessage text targetLanguage) = .error ()) := by
  refine ⟨?_, ?_, ?_, ?_⟩
  · intro h
    simp only [translateText, h]
  · intro h
    simp only [translateText, h]
  · intro h
    cases hr : respond (translateMessage text targetLanguage) with
    | error u => cases u; rfl
    | ok o =>
      simp only [translateText, hr] at h
      cases o with
      | none => cases h
      | some s => cases h
  · intro h
    simp only [translateText, h]

/-- Witness for C10 at concrete no-payload and empty-payload responses. -/
theorem translateText_empty_payload_witness :
    translateText (fun _ => .ok none) [] "English".toList = .ok [] ∧
    translateText (fun _ => .ok (some [])) [] "English".toList = .ok [] :=
  ⟨(translateText_empty_payload (fun _ => .ok none) [] "English".toList).1 rfl,
   (translateText_empty_payload (fun _ => .ok (some []))
     [] "English".toList).2.1 rfl⟩

end AudiobookCore
